import Mathlib

/-!
# Verification of the RichConsole style-rendering core

A shallow embedding of `RichConsole.py`: control-code sequences, styles,
style groups (the fixed catalog), sheets (style snapshots), the `RichStr`
style tree together with its depth-first flattening, the sheet differ
(`optimizeSheetsToCodes`), the adjacent-code merger and the final string
rendering.  All machine integers involved are small non-negative SGR
parameters, so they are modelled as `Nat`.

Python dictionaries are modelled as association lists with
insertion-order semantics (`dictSet` keeps the position of an existing
key and appends a fresh one, exactly like CPython dicts); Python `==` on
`ControlCodes`/`Style` values compares only the code tuples, which is
mirrored by `styleEq`.
-/

namespace RichConsole

/-- `ControlCodes`: an ordered sequence of SGR parameters. -/
structure ControlCodes where
  codes : List Nat
deriving DecidableEq, Repr

/-- Python `";".join(strs)`. -/
def joinSemicolon : List String → String
  | [] => ""
  | [s] => s
  | s :: t :: rest => s ++ ";" ++ joinSemicolon (t :: rest)

/-- `ControlCodes.__str__`: empty code tuple renders as `""`, otherwise
`ESC [` + `;`-joined decimal parameters + `m`. -/
def ControlCodes.render (c : ControlCodes) : String :=
  if c.codes = [] then "" else "\x1b[" ++ joinSemicolon (c.codes.map Nat.repr) ++ "m"

/-- `ControlCodes.__add__`: concatenation of the code tuples. -/
def ControlCodes.add (a b : ControlCodes) : ControlCodes :=
  ⟨a.codes ++ b.codes⟩

/-- `Style`: a named control-code sequence with an optional back-reference
to its group (category), identified here by the group's name — the global
catalog holds exactly one group object per name, so Python object identity
of groups coincides with name equality. -/
structure Style where
  name : Option String
  codes : List Nat
  group : Option String
deriving DecidableEq, Repr

/-- Python `==` on styles (inherited from `ControlCodes.__eq__`):
only the code tuples are compared. -/
def styleEq (a b : Style) : Bool :=
  a.codes == b.codes

/-- `Style.__add__`: same group (Python `is` on the group objects, i.e.
equal `group` fields here) gives a combined `Style` in that group; distinct
groups give a plain `ControlCodes`.  Combining the names of two same-group
styles raises a `TypeError` in Python when either name is `None`, hence the
`Option` result. -/
def Style.add (a b : Style) : Option (Style ⊕ ControlCodes) :=
  if a.group = b.group then
    match a.name, b.name with
    | some an, some bn => some (Sum.inl ⟨some (an ++ "&" ++ bn), a.codes ++ b.codes, a.group⟩)
    | _, _ => none
  else
    some (Sum.inr ⟨a.codes ++ b.codes⟩)

/-- The fixed catalog `groups`: the group names in their (Python 3.7+
insertion-preserving) enumeration order, paired with the codes of each
group's dedicated `reset` style. -/
def catalog : List (String × List Nat) :=
  [("Back", [49]), ("Fore", [39]), ("Brightness", [21]), ("Decor", [23]),
   ("Underline", [24]), ("CrossedOut", [29]), ("Conceal", [28]), ("Blink", [25]),
   ("Frame", [54]), ("Overline", [55]), ("Ideogram", [65]), ("Font", [10])]

/-- The `reset` style of a group (`groups[gr].reset`). -/
def resetStyle (gr : String) (codes : List Nat) : Style :=
  ⟨some "reset", codes, some gr⟩

/-- `neutral = Style("neutral", ())`, placed into the `Neutral` group. -/
def neutral : Style :=
  ⟨some "neutral", [], some "Neutral"⟩

/-- `groups.Fore.red` (code 31, imported from colorama's `Fore.RED`,
as pinned down by the repository's reference tests). -/
def red : Style := ⟨some "red", [31], some "Fore"⟩

/-- `groups.Back.lightgreenEx` (code 102, colorama `Back.LIGHTGREEN_EX`). -/
def green : Style := ⟨some "lightgreenEx", [102], some "Back"⟩

/-- `groups.Fore.cyan` (code 36, colorama `Fore.CYAN`). -/
def cyan : Style := ⟨some "cyan", [36], some "Fore"⟩

/-- `groups.Back.blue` (code 44, colorama `Back.BLUE`). -/
def blue : Style := ⟨some "blue", [44], some "Back"⟩

/-- A `Sheet` is a Python dict from group name to the active style. -/
abbrev Sheet := List (String × Style)

/-- Dict lookup: first (i.e. the only, keys being unique) binding wins. -/
def dictGet (d : Sheet) (k : String) : Option Style :=
  (d.find? (fun p => p.1 == k)).map (fun p => p.2)

/-- Python dict assignment `d[k] = v`: an existing key keeps its position,
a fresh key is appended. -/
def dictSet (d : Sheet) (k : String) (v : Style) : Sheet :=
  if d.any (fun p => p.1 == k) then
    d.map (fun p => if p.1 == k then (k, v) else p)
  else
    d ++ [(k, v)]

/-- Python `dict.update`: layer `other` over `d`. -/
def dictUpdate (d other : Sheet) : Sheet :=
  other.foldl (fun acc p => dictSet acc p.1 p.2) d

/-- `Sheet({})`, the empty snapshot. -/
def emptySheet : Sheet := []

/-- `Sheet(None)`: every group mapped to its own reset style. -/
def defaultSheet : Sheet :=
  catalog.map (fun p => (p.1, resetStyle p.1 p.2))

/-- `neutralSheet = Sheet({name: neutral for name in groups})`. -/
def neutralSheet : Sheet :=
  catalog.map (fun p => (p.1, neutral))

/-- `Sheet.diff(old, new)`: for every group of the catalog, in catalog
order, compare old's value (or the group's reset when absent) with new's
value (or the reset when absent); when the old value equals `neutral` and
the new one equals the group's reset, the new one is demoted to `neutral`;
groups whose values still differ are written into the patch. -/
def Sheet.diff (old new : Sheet) : Sheet :=
  catalog.foldl
    (fun patch p =>
      let r := resetStyle p.1 p.2
      let o := (dictGet old p.1).getD r
      let n0 := (dictGet new p.1).getD r
      let n := if styleEq o neutral && styleEq n0 r then neutral else n0
      if styleEq o n then patch else dictSet patch p.1 n)
    []

/-- `Sheet.__or__` (also `__add__`): a copy of `self` updated with `other`. -/
def Sheet.union (a b : Sheet) : Sheet :=
  dictUpdate a b

/-- A token of the flat representation: a snapshot or a literal string. -/
inductive Tok where
  | sheet (s : Sheet)
  | text (t : String)
deriving DecidableEq, Repr

mutual

/-- A `RichStr` node: the ordered children plus the locally applied sheet. -/
inductive RichStr where
  | mk (subStrs : ChildList) (sheet : Sheet)

/-- The children of a `RichStr` node: each is a literal string or a nested
node (`RichStr.subStrs`). -/
inductive ChildList where
  | nil
  | consStr (s : String) (rest : ChildList)
  | consNode (r : RichStr) (rest : ChildList)

end

mutual

/-- `RichStr.dfs`: layer the inherited sheet with the node's own sheet,
then walk the children left to right; a literal child yields the layered
sheet and then the text, a node child is recursed into with the layered
sheet as the new inherited sheet. -/
def RichStr.dfs : RichStr → Sheet → List Tok
  | RichStr.mk subs sh, inherited => dfsChildren subs (Sheet.union inherited sh)

/-- The `for subStr in self.subStrs` loop body of `RichStr.dfs`. -/
def dfsChildren : ChildList → Sheet → List Tok
  | ChildList.nil, _ => []
  | ChildList.consStr s rest, sheet => Tok.sheet sheet :: Tok.text s :: dfsChildren rest sheet
  | ChildList.consNode r rest, sheet => RichStr.dfs r sheet ++ dfsChildren rest sheet

end

/-- `RichStr.sheetRepr`: the DFS run with `Sheet(None)` (all groups at
their reset) as the inherited sheet, with that same sheet appended at the
end. -/
def sheetRepr (r : RichStr) : List Tok :=
  r.dfs defaultSheet ++ [Tok.sheet defaultSheet]

/-- The string tokens of a flat representation (`isinstance(tok, str)`). -/
def textsTok : List Tok → List String
  | [] => []
  | Tok.sheet _ :: rest => textsTok rest
  | Tok.text t :: rest => t :: textsTok rest

/-- Python `"".join`. -/
def concatStrings : List String → String
  | [] => ""
  | s :: rest => s ++ concatStrings rest

/-- `RichStr.plain`: the concatenation of the string tokens of
`sheetRepr`. -/
def plain (r : RichStr) : String :=
  concatStrings (textsTok (sheetRepr r))

/-- A token of the optimized representation: control codes or a string. -/
inductive OutTok where
  | code (c : ControlCodes)
  | text (t : String)
deriving DecidableEq, Repr

/-- The values of a patch, as emitted by `optimizeSheetsToCodes`
(`(state - prevState).values()`); rendering and merging only ever use
their code tuples, so they are emitted as `ControlCodes`. -/
def patchCodes (patch : Sheet) : List OutTok :=
  patch.map (fun p => OutTok.code ⟨p.2.codes⟩)

/-- The loop of `optimizeSheetsToCodes`, with the running `state` and
`prevState`; `initialState` is the empty sheet `Sheet()`. -/
def optGo : List Tok → Sheet → Sheet → List OutTok
  | [], _, prevState => patchCodes (Sheet.diff prevState emptySheet)
  | Tok.sheet s :: rest, _, prevState => optGo rest s prevState
  | Tok.text t :: rest, state, prevState =>
      patchCodes (Sheet.diff prevState state) ++ (OutTok.text t :: optGo rest state state)

/-- `optimizeSheetsToCodes`: turn the sheet/text stream into a
control-code/text stream, diffing only at text tokens and once at the end
against the initial (empty) state. -/
def optimizeSheetsToCodes (buf : List Tok) : List OutTok :=
  optGo buf emptySheet emptySheet

/-- The loop of `mergeAdjacentCodes`, with the accumulator. -/
def mergeGo : List OutTok → Option ControlCodes → List OutTok
  | [], none => []
  | [], some a => [OutTok.code a]
  | OutTok.code c :: rest, none => mergeGo rest (some c)
  | OutTok.code c :: rest, some a => mergeGo rest (some (a.add c))
  | OutTok.text t :: rest, none => OutTok.text t :: mergeGo rest none
  | OutTok.text t :: rest, some a => OutTok.code a :: OutTok.text t :: mergeGo rest none

/-- `mergeAdjacentCodes`: merge adjacent control-code tokens into one. -/
def mergeAdjacentCodes (buf : List OutTok) : List OutTok :=
  mergeGo buf none

/-- The module-wide `mergeCodes` toggle (default on). -/
def mergeCodes : Bool := true

/-- `RichStr.optimizedCodeRepr`. -/
def optimizedCodeRepr (r : RichStr) : List OutTok :=
  let buf := optimizeSheetsToCodes (sheetRepr r)
  if mergeCodes then mergeAdjacentCodes buf else buf

/-- `str(tok)` of one optimized token. -/
def OutTok.render : OutTok → String
  | OutTok.code c => c.render
  | OutTok.text t => t

/-- `"".join(str(it) for it in buf)`. -/
def renderAll : List OutTok → String
  | [] => ""
  | t :: rest => t.render ++ renderAll rest

/-- `RichStr.__str__`. -/
def RichStr.render (r : RichStr) : String :=
  renderAll (optimizedCodeRepr r)

/-! ## Concrete trees from the repository's reference tests -/

/-- `Sheet(red)` — a sheet built from a single style is keyed by the
style's group name. -/
def sheetForeRed : Sheet := [("Fore", red)]

/-- `Sheet(green)`. -/
def sheetBackGreen : Sheet := [("Back", green)]

/-- `Sheet(cyan)`. -/
def sheetForeCyan : Sheet := [("Fore", cyan)]

/-- `green("GGG")`. -/
def c1inner2 : RichStr :=
  RichStr.mk (ChildList.consStr "GGG" ChildList.nil) sheetBackGreen

/-- `red("RRR", green("GGG"), "rrr")`. -/
def c1inner : RichStr :=
  RichStr.mk
    (ChildList.consStr "RRR"
      (ChildList.consNode c1inner2 (ChildList.consStr "rrr" ChildList.nil)))
    sheetForeRed

/-- `RichStr("DDD", red("RRR", green("GGG"), "rrr"), "ddd")` — the §8
concrete scenario. -/
def c1tree : RichStr :=
  RichStr.mk
    (ChildList.consStr "DDD"
      (ChildList.consNode c1inner (ChildList.consStr "ddd" ChildList.nil)))
    emptySheet

/-- `order[0] = RichStr("GGG", sheet=green)` of the side-effect test. -/
def chain0 : RichStr :=
  RichStr.mk (ChildList.consStr "GGG" ChildList.nil) sheetBackGreen

/-- `order[1] = RichStr("CCC", sheet=cyan)`. -/
def chain1 : RichStr :=
  RichStr.mk (ChildList.consStr "CCC" ChildList.nil) sheetForeCyan

/-- `order[2] = RichStr("RRR", order[0], "rrr", order[1], "RRR", sheet=red)`. -/
def chain2 : RichStr :=
  RichStr.mk
    (ChildList.consStr "RRR"
      (ChildList.consNode chain0
        (ChildList.consStr "rrr"
          (ChildList.consNode chain1 (ChildList.consStr "RRR" ChildList.nil)))))
    sheetForeRed

/-- `order[3] = RichStr("DDD", order[2], "ddd")`. -/
def chain3 : RichStr :=
  RichStr.mk
    (ChildList.consStr "DDD"
      (ChildList.consNode chain2 (ChildList.consStr "ddd" ChildList.nil)))
    emptySheet

/-- The 4-node chain of the side-effect test, as a family. -/
def chainTree : Fin 4 → RichStr
  | 0 => chain0
  | 1 => chain1
  | 2 => chain2
  | 3 => chain3

/-- The four reference renderings of the chain members. -/
def chainRef : Fin 4 → String
  | 0 => "\x1b[102mGGG\x1b[49m"
  | 1 => "\x1b[36mCCC\x1b[39m"
  | 2 => "\x1b[31mRRR\x1b[102mGGG\x1b[49mrrr\x1b[36mCCC\x1b[31mRRR\x1b[39m"
  | 3 => "DDD\x1b[31mRRR\x1b[102mGGG\x1b[49mrrr\x1b[36mCCC\x1b[31mRRR\x1b[39mddd"

/-! ## Definitions transcribed from the specification's words

These are the spec-side counterparts used by the refinement claims; each
is compared against the corresponding source-side definition above. -/

/-- The differ as the specification words it: walk the catalog in its
fixed enumeration order and keep, for each category, the normalized new
value exactly when it differs from the normalized old value. -/
def diffSpec (old new : Sheet) : Sheet :=
  catalog.filterMap (fun p =>
    let r := resetStyle p.1 p.2
    let o := (dictGet old p.1).getD r
    let n0 := (dictGet new p.1).getD r
    let n := if styleEq o neutral && styleEq n0 r then neutral else n0
    if styleEq o n then none else some (p.1, n))

mutual

/-- The flattener as the specification words it: a depth-first
left-to-right traversal in which each literal-text child is immediately
preceded by the current effective snapshot — the inherited snapshot
layered with the node's local snapshot, recomputed at each child — and
node children are recursed into with the layered snapshot as the new
inherited snapshot. -/
def dfsSpec : RichStr → Sheet → List Tok
  | RichStr.mk subs sh, inherited => dfsSpecChildren subs inherited sh

/-- Child traversal of `dfsSpec`, carrying the inherited and the local
snapshot separately. -/
def dfsSpecChildren : ChildList → Sheet → Sheet → List Tok
  | ChildList.nil, _, _ => []
  | ChildList.consStr s rest, inherited, sh =>
      Tok.sheet (Sheet.union inherited sh) :: Tok.text s :: dfsSpecChildren rest inherited sh
  | ChildList.consNode r rest, inherited, sh =>
      dfsSpec r (Sheet.union inherited sh) ++ dfsSpecChildren rest inherited sh

end

/-- Is an optimized token a control-code token? -/
def isCodeTok : OutTok → Bool
  | OutTok.code _ => true
  | OutTok.text _ => false

/-- The codes of an optimized token (a text carries none). -/
def codesOf : OutTok → List Nat
  | OutTok.code c => c.codes
  | OutTok.text _ => []

/-- Ordered concatenation of the codes of a run of tokens. -/
def runCodes : List OutTok → List Nat
  | [] => []
  | t :: rest => codesOf t ++ runCodes rest

/-- The merger as the specification words it: each maximal run of
adjacent control-code tokens is replaced by a single control-code token
whose codes are the ordered concatenation of the run's codes; text tokens
are kept unchanged and in order. -/
def mergeSpec : List OutTok → List OutTok
  | [] => []
  | OutTok.text t :: rest => OutTok.text t :: mergeSpec rest
  | OutTok.code c :: rest =>
      OutTok.code ⟨c.codes ++ runCodes (rest.takeWhile isCodeTok)⟩ ::
        mergeSpec (rest.dropWhile isCodeTok)
termination_by l => l.length
decreasing_by
  · simp
  · simp only [List.length_cons]
    exact Nat.lt_succ_of_le (List.dropWhile_sublist isCodeTok).length_le

/-- The text tokens of an optimized stream, in order. -/
def textsOut : List OutTok → List String
  | [] => []
  | OutTok.code _ :: rest => textsOut rest
  | OutTok.text t :: rest => t :: textsOut rest

/-- Does the stream contain two adjacent control-code tokens? -/
def hasAdjacentCodes : List OutTok → Bool
  | OutTok.code _ :: OutTok.code _ :: _ => true
  | _ :: rest => hasAdjacentCodes rest
  | [] => false

/-! ## A scanner for `ESC[(\d+;)*\d+m` escape sequences

`stripString` implements the spec's "every substring matching
`ESC[(\d+;)*\d+m` deleted": a leftmost, non-overlapping scan (the
semantics of `re.sub` with an empty replacement).  `events` parses a
string into the event sequence a terminal processes — one event per SGR
parameter (carrying its decimal digits) and one per literal character —
and formalizes "renders identically / same terminal effect". -/

mutual

/-- Inside the body of an escape sequence, expecting the first digit of a
parameter; on success returns the rest of the input after the final `m`. -/
def matchBody : List Char → Option (List Char)
  | [] => none
  | c :: rest => if c.isDigit then matchAfterDigit rest else none

/-- Inside a parameter, at least one digit read. -/
def matchAfterDigit : List Char → Option (List Char)
  | [] => none
  | c :: rest =>
    if c.isDigit then matchAfterDigit rest
    else if c = 'm' then some rest
    else if c = ';' then matchBody rest
    else none

end

/-- Try to match one whole `ESC[(\d+;)*\d+m` sequence at the head. -/
def matchCode : List Char → Option (List Char)
  | c1 :: c2 :: rest => if c1 = '\x1b' ∧ c2 = '[' then matchBody rest else none
  | _ => none

/-- The fueled deletion scan; the fuel only serves termination and any
fuel of at least the input length gives the same result. -/
def stripGo : Nat → List Char → List Char
  | 0, l => l
  | _ + 1, [] => []
  | fuel + 1, c :: rest =>
    match matchCode (c :: rest) with
    | some r => stripGo fuel r
    | none => c :: stripGo fuel rest

/-- Delete every `ESC[(\d+;)*\d+m` match, leftmost, non-overlapping. -/
def stripCodes (l : List Char) : List Char :=
  stripGo l.length l

/-- String form of `stripCodes`. -/
def stripString (s : String) : String :=
  ⟨stripCodes s.data⟩

/-- A terminal event: one SGR parameter (as its decimal digit run) or one
literal character. -/
inductive Ev where
  | param (digits : List Char)
  | chr (c : Char)
deriving DecidableEq, Repr

mutual

/-- Parse the body of an escape sequence, collecting the digit run of
each parameter; returns the runs and the rest after the final `m`. -/
def evBody : List Char → Option (List (List Char) × List Char)
  | [] => none
  | c :: rest => if c.isDigit then evRun [c] rest else none

/-- Parse the remainder of the current parameter, `acc` holding its
digits so far. -/
def evRun : List Char → List Char → Option (List (List Char) × List Char)
  | _, [] => none
  | acc, c :: rest =>
    if c.isDigit then evRun (acc ++ [c]) rest
    else if c = 'm' then some ([acc], rest)
    else if c = ';' then
      match evBody rest with
      | some (runs, r) => some (acc :: runs, r)
      | none => none
    else none

end

/-- Try to parse one whole escape sequence at the head into its
parameter digit runs. -/
def evCode : List Char → Option (List (List Char) × List Char)
  | c1 :: c2 :: rest => if c1 = '\x1b' ∧ c2 = '[' then evBody rest else none
  | _ => none

/-- The fueled event scan. -/
def evGo : Nat → List Char → List Ev
  | 0, _ => []
  | _ + 1, [] => []
  | fuel + 1, c :: rest =>
    match evCode (c :: rest) with
    | some (runs, r) => runs.map Ev.param ++ evGo fuel r
    | none => Ev.chr c :: evGo fuel rest

/-- The events a terminal processes when fed the given characters. -/
def events (l : List Char) : List Ev :=
  evGo l.length l

/-- The parameter events produced by one code tuple. -/
def paramsOf (codes : List Nat) : List Ev :=
  codes.map (fun n => Ev.param (Nat.repr n).data)

/-- The events contributed by one optimized token. -/
def tokEvents : OutTok → List Ev
  | OutTok.code c => paramsOf c.codes
  | OutTok.text t => t.data.map Ev.chr

/-- The events of a whole token stream. -/
def eventsOfToks : List OutTok → List Ev
  | [] => []
  | t :: rest => tokEvents t ++ eventsOfToks rest

/-- Does the string avoid the escape character? -/
def noEsc (t : String) : Bool :=
  t.data.all (fun c => c ≠ '\x1b')

/-- Do all text tokens of the stream avoid the escape character? -/
def escFreeOut (l : List OutTok) : Bool :=
  (textsOut l).all noEsc

mutual

/-- Do all literal texts of the tree avoid the escape character? -/
def escFreeTree : RichStr → Bool
  | RichStr.mk subs _ => escFreeChildren subs

/-- `escFreeTree` on a child list. -/
def escFreeChildren : ChildList → Bool
  | ChildList.nil => true
  | ChildList.consStr s rest => noEsc s && escFreeChildren rest
  | ChildList.consNode r rest => escFreeTree r && escFreeChildren rest

end

/-- A tree whose literal text is itself an escape sequence. -/
def cexEscTree : RichStr :=
  RichStr.mk (ChildList.consStr "\x1b[1m" ChildList.nil) emptySheet

/-- The token stream of the repository's code-merger test
(`["1", red, blue, "2", green, "3", blue, "4", Fore.reset, Back.reset, "5"]`,
taken at their code tuples). -/
def mergerTestData : List OutTok :=
  [OutTok.text "1", OutTok.code ⟨[31]⟩, OutTok.code ⟨[44]⟩, OutTok.text "2",
   OutTok.code ⟨[102]⟩, OutTok.text "3", OutTok.code ⟨[44]⟩, OutTok.text "4",
   OutTok.code ⟨[39]⟩, OutTok.code ⟨[49]⟩, OutTok.text "5"]

/-- Does the sheet bind every category of the catalog? -/
def coversCatalog (S : Sheet) : Bool :=
  catalog.all (fun p => (dictGet S p.1).isSome)

/-! ## Supporting lemmas -/

theorem dictGet_nil (k : String) : dictGet [] k = none := rfl

theorem dictGet_cons (p : String × Style) (d : Sheet) (k : String) :
    dictGet (p :: d) k = if p.1 = k then some p.2 else dictGet d k := by
  by_cases h : p.1 = k
  · simp [dictGet, List.find?_cons_of_pos, h]
  · simp only [dictGet, h, if_false]
    rw [List.find?_cons_of_neg]
    simp [h]

theorem dictGet_eq_none (d : Sheet) (k : String) (h : k ∉ d.map Prod.fst) :
    dictGet d k = none := by
  unfold dictGet
  rw [List.find?_eq_none.mpr]
  · rfl
  · intro p hp
    simp only [beq_iff_eq]
    intro hk
    exact h (List.mem_map.mpr ⟨p, hp, hk⟩)

theorem dictGet_isSome (d : Sheet) (k : String) (h : k ∈ d.map Prod.fst) :
    (dictGet d k).isSome := by
  unfold dictGet
  rw [Option.isSome_map']
  rw [List.find?_isSome]
  obtain ⟨p, hp, hk⟩ := List.mem_map.mp h
  exact ⟨p, hp, by simp [hk]⟩

theorem dictGet_mapSet (d : Sheet) (a k : String) (v : Style) (hk : ¬ a = k) :
    dictGet (d.map (fun q => if q.1 == a then (a, v) else q)) k = dictGet d k := by
  induction d with
  | nil => rfl
  | cons q rest ih =>
    rw [List.map_cons]
    by_cases hq : q.1 = a
    · rw [if_pos (by simpa using hq), dictGet_cons, dictGet_cons, if_neg hk, if_neg (hq ▸ hk), ih]
    · rw [if_neg (by simpa using hq), dictGet_cons, dictGet_cons, ih]

theorem dictGet_mapSet_self (d : Sheet) (a : String) (v : Style)
    (hmem : d.any (fun q => q.1 == a)) :
    dictGet (d.map (fun q => if q.1 == a then (a, v) else q)) a = some v := by
  induction d with
  | nil => simp at hmem
  | cons q rest ih =>
    rw [List.map_cons]
    by_cases hq : q.1 = a
    · rw [if_pos (by simpa using hq), dictGet_cons, if_pos rfl]
    · rw [if_neg (by simpa using hq), dictGet_cons, if_neg hq]
      apply ih
      simp only [List.any_cons, Bool.or_eq_true] at hmem
      rcases hmem with h | h
      · exact absurd (by simpa using h) hq
      · exact h

theorem dictGet_append_single (d : Sheet) (a k : String) (v : Style) :
    dictGet (d ++ [(a, v)]) k = (dictGet d k).or (if a = k then some v else none) := by
  induction d with
  | nil =>
    rw [List.nil_append, dictGet_cons, dictGet_nil]
    by_cases h : a = k <;> simp [h]
  | cons q rest ih =>
    rw [List.cons_append, dictGet_cons, dictGet_cons]
    by_cases hq : q.1 = k
    · simp [hq]
    · simp only [hq, if_false, ih]

theorem dictGet_dictSet (d : Sheet) (a k : String) (v : Style) :
    dictGet (dictSet d a v) k = if a = k then some v else dictGet d k := by
  unfold dictSet
  by_cases hany : d.any (fun q => q.1 == a)
  · rw [if_pos hany]
    by_cases h : a = k
    · subst h
      rw [if_pos rfl, dictGet_mapSet_self d a v hany]
    · rw [if_neg h, dictGet_mapSet d a k v h]
  · rw [if_neg hany, dictGet_append_single]
    by_cases h : a = k
    · subst h
      have : dictGet d a = none := by
        apply dictGet_eq_none
        intro hmem
        apply hany
        obtain ⟨p, hp, hk⟩ := List.mem_map.mp hmem
        exact List.any_eq_true.mpr ⟨p, hp, by simp [hk]⟩
      simp [this]
    · simp only [h, if_false, Option.or_none]

theorem dictGet_dictUpdate (other : Sheet) :
    ∀ (d : Sheet) (k : String), (other.map Prod.fst).Nodup →
      dictGet (dictUpdate d other) k = (dictGet other k).or (dictGet d k) := by
  induction other with
  | nil => intro d k _; simp [dictUpdate, dictGet_nil]
  | cons p rest ih =>
    intro d k hnodup
    simp only [List.map_cons, List.nodup_cons] at hnodup
    have step : dictUpdate d (p :: rest) = dictUpdate (dictSet d p.1 p.2) rest := rfl
    rw [step, ih (dictSet d p.1 p.2) k hnodup.2, dictGet_cons, dictGet_dictSet]
    by_cases h : p.1 = k
    · subst h
      have : dictGet rest p.1 = none :=
        dictGet_eq_none rest p.1 hnodup.1
      simp [this]
    · simp [h]

theorem mem_keys_of_isSome (d : Sheet) (k : String) (h : (dictGet d k).isSome) :
    k ∈ d.map Prod.fst := by
  unfold dictGet at h
  rw [Option.isSome_map', List.find?_isSome] at h
  obtain ⟨p, hp, hbeq⟩ := h
  exact List.mem_map.mpr ⟨p, hp, by simpa using hbeq⟩

theorem neutralSheet_keys : neutralSheet.map Prod.fst = catalog.map Prod.fst := by
  simp [neutralSheet, List.map_map]

theorem neutral_layer_total (S : Sheet) (k : String) (hnodup : (S.map Prod.fst).Nodup)
    (hcov : coversCatalog S = true) :
    dictGet (Sheet.union neutralSheet S) k = dictGet S k := by
  unfold Sheet.union
  rw [dictGet_dictUpdate S neutralSheet k hnodup]
  by_cases hmem : k ∈ S.map Prod.fst
  · have h := dictGet_isSome S k hmem
    cases hS : dictGet S k with
    | none => rw [hS] at h; simp at h
    | some v => simp [hS]
  · have hS : dictGet S k = none := dictGet_eq_none S k hmem
    have hN : dictGet neutralSheet k = none := by
      apply dictGet_eq_none
      rw [neutralSheet_keys]
      intro hkcat
      apply hmem
      obtain ⟨p, hp, hk⟩ := List.mem_map.mp hkcat
      have := List.all_eq_true.mp hcov p hp
      simp only [hk] at this
      exact mem_keys_of_isSome S k (by simpa using this)
    simp [hS, hN]

theorem dictSet_fresh (d : Sheet) (k : String) (v : Style)
    (h : ∀ p ∈ d, p.1 ≠ k) : dictSet d k v = d ++ [(k, v)] := by
  unfold dictSet
  rw [if_neg]
  simp only [List.any_eq_true, not_exists]
  intro p
  intro hcon
  rcases hcon with ⟨hp, hbeq⟩
  exact h p hp (by simpa using hbeq)

theorem foldl_dictSet_eq_filterMap (f : String × List Nat → Option Style) :
    ∀ (cats : List (String × List Nat)) (patch : Sheet),
      (∀ q ∈ cats, ∀ p ∈ patch, p.1 ≠ q.1) →
      (cats.map Prod.fst).Nodup →
      cats.foldl (fun acc q => match f q with | none => acc | some n => dictSet acc q.1 n) patch
        = patch ++ cats.filterMap (fun q => (f q).map (fun n => (q.1, n))) := by
  intro cats
  induction cats with
  | nil => intro patch _ _; simp
  | cons q cs ih =>
    intro patch hfresh hnodup
    simp only [List.map_cons, List.nodup_cons] at hnodup
    simp only [List.foldl_cons, List.filterMap_cons]
    cases hf : f q with
    | none =>
      simp only [hf, Option.map_none']
      exact ih patch (fun q' hq' p hp => hfresh q' (List.mem_cons_of_mem q hq') p hp) hnodup.2
    | some n =>
      simp only [hf, Option.map_some']
      have hset : dictSet patch q.1 n = patch ++ [(q.1, n)] :=
        dictSet_fresh patch q.1 n (fun p hp => hfresh q (List.mem_cons_self q cs) p hp)
      rw [hset]
      rw [ih (patch ++ [(q.1, n)]) ?fresh hnodup.2]
      · rw [List.append_assoc]
        rfl
      case fresh =>
        intro q' hq' p hp
        rcases List.mem_append.mp hp with h1 | h2
        · exact hfresh q' (List.mem_cons_of_mem q hq') p h1
        · have : p = (q.1, n) := by simpa using h2
          subst this
          intro hcon
          apply hnodup.1
          rw [hcon]
          exact List.mem_map.mpr ⟨q', hq', rfl⟩

mutual

theorem dfs_eq_dfsSpec : ∀ (r : RichStr) (inh : Sheet), r.dfs inh = dfsSpec r inh
  | RichStr.mk subs sh, inh => by
    rw [RichStr.dfs, dfsSpec]
    exact dfsChildren_eq_spec subs inh sh

theorem dfsChildren_eq_spec : ∀ (cl : ChildList) (inh sh : Sheet),
    dfsChildren cl (Sheet.union inh sh) = dfsSpecChildren cl inh sh
  | ChildList.nil, _, _ => rfl
  | ChildList.consStr s rest, inh, sh => by
    rw [dfsChildren, dfsSpecChildren, dfsChildren_eq_spec rest inh sh]
  | ChildList.consNode r rest, inh, sh => by
    rw [dfsChildren, dfsSpecChildren, dfsChildren_eq_spec rest inh sh,
      dfs_eq_dfsSpec r (Sheet.union inh sh)]

end

/-! ## Decimal digit facts -/

theorem digitChar_isDigit : ∀ m : Nat, m < 10 → (Nat.digitChar m).isDigit = true := by
  decide

theorem toDigitsCore_digits :
    ∀ (fuel n : Nat) (acc : List Char), (∀ c ∈ acc, c.isDigit = true) →
      ∀ c ∈ Nat.toDigitsCore 10 fuel n acc, c.isDigit = true := by
  intro fuel
  induction fuel with
  | zero => intro n acc hacc c hc; exact hacc c hc
  | succ f ih =>
    intro n acc hacc c hc
    rw [Nat.toDigitsCore] at hc
    have hd : (Nat.digitChar (n % 10)).isDigit = true :=
      digitChar_isDigit _ (Nat.mod_lt _ (by omega))
    by_cases h : n / 10 = 0
    · rw [if_pos h] at hc
      rcases List.mem_cons.mp hc with h1 | h2
      · rw [h1]; exact hd
      · exact hacc c h2
    · rw [if_neg h] at hc
      refine ih (n / 10) (Nat.digitChar (n % 10) :: acc) ?_ c hc
      intro c' hc'
      rcases List.mem_cons.mp hc' with h1 | h2
      · rw [h1]; exact hd
      · exact hacc c' h2

theorem repr_digits (n : Nat) : ∀ c ∈ (Nat.repr n).data, c.isDigit = true := by
  intro c hc
  have h0 : (Nat.repr n).data = Nat.toDigits 10 n := rfl
  rw [h0, Nat.toDigits] at hc
  exact toDigitsCore_digits (n + 1) n [] (by intro c hc; simp at hc) c hc

theorem toDigitsCore_length :
    ∀ (fuel n : Nat) (acc : List Char),
      acc.length ≤ (Nat.toDigitsCore 10 fuel n acc).length := by
  intro fuel
  induction fuel with
  | zero => intro n acc; rw [Nat.toDigitsCore]
  | succ f ih =>
    intro n acc
    rw [Nat.toDigitsCore]
    by_cases h : n / 10 = 0
    · rw [if_pos h]
      exact Nat.le_succ _
    · rw [if_neg h]
      calc acc.length ≤ (Nat.digitChar (n % 10) :: acc).length := Nat.le_succ _
        _ ≤ _ := ih (n / 10) (Nat.digitChar (n % 10) :: acc)

theorem repr_ne_nil (n : Nat) : (Nat.repr n).data ≠ [] := by
  have h0 : (Nat.repr n).data = Nat.toDigits 10 n := rfl
  rw [h0, Nat.toDigits, Nat.toDigitsCore]
  by_cases h : n / 10 = 0
  · rw [if_pos h]; simp
  · rw [if_neg h]
    intro hcon
    have hlen := toDigitsCore_length n (n / 10) [Nat.digitChar (n % 10)]
    rw [hcon] at hlen
    simp at hlen

theorem isDigit_ne_esc {c : Char} (h : c.isDigit = true) : ¬ c = '\x1b' := by
  intro he; rw [he] at h; exact absurd h (by decide)

theorem isDigit_ne_m {c : Char} (h : c.isDigit = true) : ¬ c = 'm' := by
  intro he; rw [he] at h; exact absurd h (by decide)

theorem isDigit_ne_semi {c : Char} (h : c.isDigit = true) : ¬ c = ';' := by
  intro he; rw [he] at h; exact absurd h (by decide)

/-! ## Matching facts for the deletion scanner -/

theorem matchAfterDigit_m :
    ∀ (ds : List Char) (s : List Char), (∀ c ∈ ds, c.isDigit = true) →
      matchAfterDigit (ds ++ 'm' :: s) = some s := by
  intro ds
  induction ds with
  | nil => intro s _; rw [List.nil_append, matchAfterDigit]; simp
  | cons d ds' ih =>
    intro s h
    rw [List.cons_append, matchAfterDigit,
      if_pos (h d (List.mem_cons_self d ds')), ih s (fun c hc => h c (List.mem_cons_of_mem d hc))]

theorem matchAfterDigit_semi :
    ∀ (ds : List Char) (r : List Char), (∀ c ∈ ds, c.isDigit = true) →
      matchAfterDigit (ds ++ ';' :: r) = matchBody r := by
  intro ds
  induction ds with
  | nil => intro r _; rw [List.nil_append, matchAfterDigit]; simp
  | cons d ds' ih =>
    intro r h
    rw [List.cons_append, matchAfterDigit,
      if_pos (h d (List.mem_cons_self d ds')), ih r (fun c hc => h c (List.mem_cons_of_mem d hc))]

theorem matchBody_m (ds : List Char) (s : List Char) (hne : ds ≠ [])
    (h : ∀ c ∈ ds, c.isDigit = true) :
    matchBody (ds ++ 'm' :: s) = some s := by
  match ds, hne with
  | d :: ds', _ =>
    rw [List.cons_append, matchBody, if_pos (h d (List.mem_cons_self d ds'))]
    exact matchAfterDigit_m ds' s (fun c hc => h c (List.mem_cons_of_mem d hc))

theorem matchBody_semi (ds : List Char) (r : List Char) (hne : ds ≠ [])
    (h : ∀ c ∈ ds, c.isDigit = true) :
    matchBody (ds ++ ';' :: r) = matchBody r := by
  match ds, hne with
  | d :: ds', _ =>
    rw [List.cons_append, matchBody, if_pos (h d (List.mem_cons_self d ds'))]
    exact matchAfterDigit_semi ds' r (fun c hc => h c (List.mem_cons_of_mem d hc))

theorem joinSemicolon_cons_data (a : String) (t : String) (rest : List String) :
    (joinSemicolon (a :: t :: rest)).data = a.data ++ ';' :: (joinSemicolon (t :: rest)).data := by
  rw [joinSemicolon]
  simp [String.data_append]

theorem matchBody_join :
    ∀ (codes : List Nat) (s : List Char), codes ≠ [] →
      matchBody ((joinSemicolon (codes.map Nat.repr)).data ++ 'm' :: s) = some s := by
  intro codes
  induction codes with
  | nil => intro s h; exact absurd rfl h
  | cons n rest ih =>
    intro s _
    match rest with
    | [] =>
      rw [List.map_cons, List.map_nil]
      show matchBody ((Nat.repr n).data ++ 'm' :: s) = some s
      exact matchBody_m _ s (repr_ne_nil n) (repr_digits n)
    | m :: rest' =>
      rw [List.map_cons, List.map_cons, joinSemicolon_cons_data, List.append_assoc,
        List.cons_append]
      rw [matchBody_semi _ _ (repr_ne_nil n) (repr_digits n)]
      have := ih s (by simp)
      rw [List.map_cons] at this
      exact this

mutual

theorem matchBody_length : ∀ (l r : List Char), matchBody l = some r → r.length ≤ l.length
  | [], r => by rw [matchBody]; intro h; cases h
  | c :: rest, r => by
    rw [matchBody]
    by_cases h : c.isDigit = true
    · rw [if_pos h]
      intro hm
      exact (matchAfterDigit_length rest r hm).trans (Nat.le_succ _)
    · rw [if_neg h]
      intro hm; cases hm

theorem matchAfterDigit_length :
    ∀ (l r : List Char), matchAfterDigit l = some r → r.length ≤ l.length
  | [], r => by rw [matchAfterDigit]; intro h; cases h
  | c :: rest, r => by
    rw [matchAfterDigit]
    by_cases h : c.isDigit = true
    · rw [if_pos h]
      intro hm
      exact (matchAfterDigit_length rest r hm).trans (Nat.le_succ _)
    · rw [if_neg h]
      by_cases hm : c = 'm'
      · rw [if_pos hm]
        intro he
        cases he
        exact Nat.le_succ _
      · rw [if_neg hm]
        by_cases hs : c = ';'
        · rw [if_pos hs]
          intro hb
          exact (matchBody_length rest r hb).trans (Nat.le_succ _)
        · rw [if_neg hs]
          intro hcon; cases hcon

end

theorem matchCode_length : ∀ (l r : List Char), matchCode l = some r → r.length < l.length := by
  intro l r
  match l with
  | [] => intro h; exact Option.noConfusion h
  | [c] => intro h; exact Option.noConfusion h
  | c1 :: c2 :: rest =>
    rw [matchCode]
    by_cases h : c1 = '\x1b' ∧ c2 = '['
    · rw [if_pos h]
      intro hm
      have := matchBody_length rest r hm
      simp only [List.length_cons]
      omega
    · rw [if_neg h]
      intro hcon; cases hcon

theorem stripGo_nil : ∀ fuel : Nat, stripGo fuel [] = [] := by
  intro fuel
  cases fuel <;> rfl

theorem stripGo_congr :
    ∀ (f1 : Nat), ∀ (f2 : Nat) (l : List Char), l.length ≤ f1 → l.length ≤ f2 →
      stripGo f1 l = stripGo f2 l := by
  intro f1
  induction f1 using Nat.strong_induction_on with
  | _ f1 ih =>
    intro f2 l h1 h2
    match f1, l with
    | f1, [] => rw [stripGo_nil, stripGo_nil]
    | f + 1, c :: rest =>
      match f2 with
      | g + 1 =>
        rw [stripGo, stripGo]
        cases hm : matchCode (c :: rest) with
        | some r =>
          have hlt := matchCode_length _ r hm
          simp only [List.length_cons] at hlt h1 h2
          exact ih f (by omega) g r (by omega) (by omega)
        | none =>
          simp only [List.length_cons] at h1 h2
          rw [ih f (by omega) g rest (by omega) (by omega)]

theorem stripCodes_cons (c : Char) (rest : List Char) :
    stripCodes (c :: rest) =
      match matchCode (c :: rest) with
      | some r => stripCodes r
      | none => c :: stripCodes rest := by
  show stripGo (c :: rest).length (c :: rest) = _
  rw [List.length_cons, stripGo]
  cases hm : matchCode (c :: rest) with
  | some r =>
    have hlt := matchCode_length _ r hm
    simp only [List.length_cons] at hlt
    show stripGo rest.length r = stripCodes r
    exact stripGo_congr rest.length r.length r (by omega) (by omega)
  | none =>
    rfl

theorem matchCode_not_esc (c : Char) (l : List Char) (h : ¬ c = '\x1b') :
    matchCode (c :: l) = none := by
  match l with
  | [] => rfl
  | c2 :: rest =>
    rw [matchCode, if_neg]
    intro hcon
    exact h hcon.1

theorem stripCodes_text :
    ∀ (t s : List Char), (∀ c ∈ t, ¬ c = '\x1b') →
      stripCodes (t ++ s) = t ++ stripCodes s := by
  intro t
  induction t with
  | nil => intro s _; rw [List.nil_append, List.nil_append]
  | cons c t' ih =>
    intro s h
    rw [List.cons_append, stripCodes_cons,
      matchCode_not_esc c _ (h c (List.mem_cons_self c t')), List.cons_append,
      ih s (fun c' hc' => h c' (List.mem_cons_of_mem c hc'))]

theorem render_data (codes : List Nat) (hne : codes ≠ []) :
    (ControlCodes.render ⟨codes⟩).data
      = '\x1b' :: '[' :: ((joinSemicolon (codes.map Nat.repr)).data ++ ['m']) := by
  rw [ControlCodes.render]
  simp only [hne, if_false]
  simp [String.data_append]

theorem stripCodes_code (codes : List Nat) (s : List Char) :
    stripCodes ((ControlCodes.render ⟨codes⟩).data ++ s) = stripCodes s := by
  by_cases hne : codes = []
  · subst hne
    rw [show (ControlCodes.render ⟨[]⟩).data = [] from rfl, List.nil_append]
  · rw [render_data codes hne, List.cons_append, List.cons_append, List.append_assoc,
      List.singleton_append, stripCodes_cons]
    have hm : matchCode ('\x1b' :: '[' :: ((joinSemicolon (codes.map Nat.repr)).data ++ 'm' :: s))
        = some s := by
      rw [matchCode, if_pos ⟨rfl, rfl⟩]
      exact matchBody_join codes s hne
    rw [hm]

/-! ## Text preservation along the pipeline -/

theorem textsOut_append : ∀ (a b : List OutTok), textsOut (a ++ b) = textsOut a ++ textsOut b := by
  intro a b
  induction a with
  | nil => rfl
  | cons t rest ih =>
    cases t with
    | code c => rw [List.cons_append, textsOut, ih]; rfl
    | text t => rw [List.cons_append, textsOut, ih]; rfl

theorem textsOut_patchCodes (p : Sheet) : textsOut (patchCodes p) = [] := by
  induction p with
  | nil => rfl
  | cons q rest ih => rw [patchCodes] at ih ⊢; rw [List.map_cons, textsOut, ih]

theorem textsTok_append : ∀ (a b : List Tok), textsTok (a ++ b) = textsTok a ++ textsTok b := by
  intro a b
  induction a with
  | nil => rfl
  | cons t rest ih =>
    cases t with
    | sheet s => rw [List.cons_append, textsTok, ih]; rfl
    | text t => rw [List.cons_append, textsTok, ih]; rfl

theorem textsOut_optGo :
    ∀ (buf : List Tok) (st prev : Sheet), textsOut (optGo buf st prev) = textsTok buf := by
  intro buf
  induction buf with
  | nil =>
    intro st prev
    rw [optGo, textsOut_patchCodes]
    rfl
  | cons t rest ih =>
    intro st prev
    cases t with
    | sheet s => rw [optGo, ih, textsTok]
    | text t =>
      rw [optGo, textsOut_append, textsOut_patchCodes, textsOut, ih, textsTok]
      rfl

theorem textsOut_mergeGo :
    ∀ (l : List OutTok) (acc : Option ControlCodes), textsOut (mergeGo l acc) = textsOut l := by
  intro l
  induction l with
  | nil => intro acc; cases acc <;> rfl
  | cons t rest ih =>
    intro acc
    cases t with
    | code c =>
      cases acc with
      | none => rw [mergeGo, ih, textsOut]
      | some a => rw [mergeGo, ih, textsOut]
    | text t =>
      cases acc with
      | none => rw [mergeGo, textsOut, textsOut, ih]
      | some a => rw [mergeGo, textsOut, textsOut, textsOut, ih]

theorem strip_renderAll :
    ∀ l : List OutTok, (∀ t ∈ textsOut l, noEsc t = true) →
      stripCodes (renderAll l).data = (concatStrings (textsOut l)).data := by
  intro l
  induction l with
  | nil => intro _; rfl
  | cons t rest ih =>
    intro h
    cases t with
    | code c =>
      rw [renderAll, String.data_append]
      rw [show (OutTok.code c).render = ControlCodes.render ⟨c.codes⟩ from rfl]
      rw [stripCodes_code c.codes]
      rw [textsOut] at h ⊢
      exact ih h
    | text t =>
      rw [renderAll, String.data_append]
      rw [show (OutTok.text t).render = t from rfl]
      rw [textsOut] at h ⊢
      have hesc : ∀ c ∈ t.data, ¬ c = '\x1b' := by
        have := h t (List.mem_cons_self t _)
        rw [noEsc, List.all_eq_true] at this
        intro c hc
        have := this c hc
        simpa using this
      rw [stripCodes_text t.data _ hesc, concatStrings, String.data_append,
        ih (fun t' ht' => h t' (List.mem_cons_of_mem t ht'))]

mutual

theorem dfs_texts_noEsc :
    ∀ (r : RichStr), escFreeTree r = true →
      ∀ (inh : Sheet), ∀ t ∈ textsTok (r.dfs inh), noEsc t = true
  | RichStr.mk subs sh, h, inh, t, ht => by
    rw [RichStr.dfs] at ht
    rw [escFreeTree] at h
    exact dfsChildren_texts_noEsc subs h (Sheet.union inh sh) t ht

theorem dfsChildren_texts_noEsc :
    ∀ (cl : ChildList), escFreeChildren cl = true →
      ∀ (sheet : Sheet), ∀ t ∈ textsTok (dfsChildren cl sheet), noEsc t = true
  | ChildList.nil, _, sheet, t, ht => by
    rw [dfsChildren] at ht
    exact absurd ht (by simp [textsTok])
  | ChildList.consStr s rest, h, sheet, t, ht => by
    rw [dfsChildren, textsTok, textsTok] at ht
    rw [escFreeChildren, Bool.and_eq_true] at h
    rcases List.mem_cons.mp ht with h1 | h2
    · rw [h1]; exact h.1
    · exact dfsChildren_texts_noEsc rest h.2 sheet t h2
  | ChildList.consNode r rest, h, sheet, t, ht => by
    rw [dfsChildren, textsTok_append] at ht
    rw [escFreeChildren, Bool.and_eq_true] at h
    rcases List.mem_append.mp ht with h1 | h2
    · exact dfs_texts_noEsc r h.1 sheet t h1
    · exact dfsChildren_texts_noEsc rest h.2 sheet t h2

end

theorem sheetRepr_texts_noEsc (r : RichStr) (h : escFreeTree r = true) :
    ∀ t ∈ textsTok (sheetRepr r), noEsc t = true := by
  intro t ht
  rw [sheetRepr, textsTok_append] at ht
  rcases List.mem_append.mp ht with h1 | h2
  · exact dfs_texts_noEsc r h defaultSheet t h1
  · exact absurd h2 (by simp [textsTok])

mutual

theorem mergeGo_none_eq : ∀ l : List OutTok, mergeGo l none = mergeSpec l
  | [] => by rw [mergeGo, mergeSpec]
  | OutTok.text t :: rest => by rw [mergeGo, mergeGo_none_eq rest, mergeSpec]
  | OutTok.code c :: rest => by rw [mergeGo, mergeGo_some_eq rest c]

theorem mergeGo_some_eq : ∀ (l : List OutTok) (a : ControlCodes),
    mergeGo l (some a) = mergeSpec (OutTok.code a :: l)
  | [], a => by
    rw [mergeGo, mergeSpec]
    simp [runCodes, mergeSpec]
  | OutTok.code c :: rest, a => by
    rw [mergeGo, mergeGo_some_eq rest (a.add c), mergeSpec, mergeSpec]
    simp [List.takeWhile_cons, List.dropWhile_cons, isCodeTok, ControlCodes.add, runCodes,
      List.append_assoc, codesOf]
  | OutTok.text t :: rest, a => by
    rw [mergeGo, mergeSpec]
    simp only [List.takeWhile_cons, List.dropWhile_cons, isCodeTok, runCodes,
      List.append_nil, Bool.false_eq_true, if_false]
    rw [show mergeSpec (OutTok.text t :: rest) = OutTok.text t :: mergeSpec rest from by
      rw [mergeSpec]]
    rw [mergeGo_none_eq rest]

end

/-! ## Terminal-event facts -/

mutual

theorem evBody_length : ∀ (l : List Char) (rs : List (List Char)) (r : List Char),
    evBody l = some (rs, r) → r.length ≤ l.length
  | [], rs, r => by rw [evBody]; intro h; cases h
  | c :: rest, rs, r => by
    rw [evBody]
    by_cases h : c.isDigit = true
    · rw [if_pos h]
      intro hm
      exact (evRun_length rest [c] rs r hm).trans (Nat.le_succ _)
    · rw [if_neg h]
      intro hm; cases hm

theorem evRun_length : ∀ (l acc : List Char) (rs : List (List Char)) (r : List Char),
    evRun acc l = some (rs, r) → r.length ≤ l.length
  | [], acc, rs, r => by rw [evRun]; intro h; cases h
  | c :: rest, acc, rs, r => by
    rw [evRun]
    by_cases h : c.isDigit = true
    · rw [if_pos h]
      intro hm
      exact (evRun_length rest (acc ++ [c]) rs r hm).trans (Nat.le_succ _)
    · rw [if_neg h]
      by_cases hm' : c = 'm'
      · rw [if_pos hm']
        intro he
        cases he
        exact Nat.le_succ _
      · rw [if_neg hm']
        by_cases hs : c = ';'
        · rw [if_pos hs]
          cases hb : evBody rest with
          | some pr =>
            intro he
            cases he
            exact (evBody_length rest pr.1 pr.2 (by rw [hb])).trans (Nat.le_succ _)
          | none => intro he; cases he
        · rw [if_neg hs]
          intro he; cases he

end

theorem evCode_length : ∀ (l : List Char) (rs : List (List Char)) (r : List Char),
    evCode l = some (rs, r) → r.length < l.length := by
  intro l rs r
  match l with
  | [] => intro h; exact Option.noConfusion h
  | [c] => intro h; exact Option.noConfusion h
  | c1 :: c2 :: rest =>
    rw [evCode]
    by_cases h : c1 = '\x1b' ∧ c2 = '['
    · rw [if_pos h]
      intro hm
      have := evBody_length rest rs r hm
      simp only [List.length_cons]
      omega
    · rw [if_neg h]
      intro hcon; cases hcon

theorem evGo_nil : ∀ fuel : Nat, evGo fuel [] = [] := by
  intro fuel
  cases fuel <;> rfl

theorem evGo_congr :
    ∀ (f1 : Nat), ∀ (f2 : Nat) (l : List Char), l.length ≤ f1 → l.length ≤ f2 →
      evGo f1 l = evGo f2 l := by
  intro f1
  induction f1 using Nat.strong_induction_on with
  | _ f1 ih =>
    intro f2 l h1 h2
    match f1, l with
    | f1, [] => rw [evGo_nil, evGo_nil]
    | f + 1, c :: rest =>
      match f2 with
      | g + 1 =>
        rw [evGo, evGo]
        cases hm : evCode (c :: rest) with
        | some pr =>
          obtain ⟨runs, r⟩ := pr
          have hlt := evCode_length _ runs r hm
          simp only [List.length_cons] at hlt h1 h2
          show runs.map Ev.param ++ evGo f r = runs.map Ev.param ++ evGo g r
          rw [ih f (by omega) g r (by omega) (by omega)]
        | none =>
          simp only [List.length_cons] at h1 h2
          rw [ih f (by omega) g rest (by omega) (by omega)]

theorem events_cons (c : Char) (rest : List Char) :
    events (c :: rest) =
      match evCode (c :: rest) with
      | some (runs, r) => runs.map Ev.param ++ events r
      | none => Ev.chr c :: events rest := by
  show evGo (c :: rest).length (c :: rest) = _
  rw [List.length_cons, evGo]
  cases hm : evCode (c :: rest) with
  | some pr =>
    have hlt := evCode_length _ pr.1 pr.2 (by rw [hm])
    simp only [List.length_cons] at hlt
    show pr.1.map Ev.param ++ evGo rest.length pr.2 = pr.1.map Ev.param ++ events pr.2
    rw [evGo_congr rest.length pr.2.length pr.2 (by omega) (by omega)]
    rfl
  | none => rfl

theorem evCode_not_esc (c : Char) (l : List Char) (h : ¬ c = '\x1b') :
    evCode (c :: l) = none := by
  match l with
  | [] => rfl
  | c2 :: rest =>
    rw [evCode, if_neg]
    intro hcon
    exact h hcon.1

theorem events_text :
    ∀ (t s : List Char), (∀ c ∈ t, ¬ c = '\x1b') →
      events (t ++ s) = t.map Ev.chr ++ events s := by
  intro t
  induction t with
  | nil => intro s _; rw [List.nil_append, List.map_nil, List.nil_append]
  | cons c t' ih =>
    intro s h
    rw [List.cons_append, events_cons,
      evCode_not_esc c _ (h c (List.mem_cons_self c t')), List.map_cons, List.cons_append,
      ih s (fun c' hc' => h c' (List.mem_cons_of_mem c hc'))]

theorem evRun_m :
    ∀ (ds acc s : List Char), (∀ c ∈ ds, c.isDigit = true) →
      evRun acc (ds ++ 'm' :: s) = some ([acc ++ ds], s) := by
  intro ds
  induction ds with
  | nil =>
    intro acc s _
    rw [List.nil_append, evRun]
    simp
  | cons d ds' ih =>
    intro acc s h
    rw [List.cons_append, evRun, if_pos (h d (List.mem_cons_self d ds')),
      ih (acc ++ [d]) s (fun c hc => h c (List.mem_cons_of_mem d hc))]
    rw [List.append_assoc]
    rfl

theorem evRun_semi :
    ∀ (ds acc r : List Char), (∀ c ∈ ds, c.isDigit = true) →
      evRun acc (ds ++ ';' :: r) =
        match evBody r with
        | some (runs, rr) => some ((acc ++ ds) :: runs, rr)
        | none => none := by
  intro ds
  induction ds with
  | nil =>
    intro acc r _
    rw [List.nil_append, evRun]
    simp
  | cons d ds' ih =>
    intro acc r h
    rw [List.cons_append, evRun, if_pos (h d (List.mem_cons_self d ds')),
      ih (acc ++ [d]) r (fun c hc => h c (List.mem_cons_of_mem d hc))]
    rw [List.append_assoc]
    rfl

theorem evBody_join :
    ∀ (codes : List Nat) (s : List Char), codes ≠ [] →
      evBody ((joinSemicolon (codes.map Nat.repr)).data ++ 'm' :: s)
        = some (codes.map (fun n => (Nat.repr n).data), s) := by
  intro codes
  induction codes with
  | nil => intro s h; exact absurd rfl h
  | cons n rest ih =>
    intro s _
    match rest with
    | [] =>
      rw [List.map_cons, List.map_nil]
      show evBody ((Nat.repr n).data ++ 'm' :: s) = some ([(Nat.repr n).data], s)
      cases hd : (Nat.repr n).data with
      | nil => exact absurd hd (repr_ne_nil n)
      | cons d ds' =>
        have hdig : ∀ c ∈ d :: ds', c.isDigit = true := by
          rw [← hd]; exact repr_digits n
        rw [List.cons_append, evBody, if_pos (hdig d (List.mem_cons_self d ds'))]
        rw [evRun_m ds' [d] s (fun c hc => hdig c (List.mem_cons_of_mem d hc))]
        rfl
    | m :: rest' =>
      rw [List.map_cons, List.map_cons, joinSemicolon_cons_data, List.append_assoc,
        List.cons_append]
      cases hd : (Nat.repr n).data with
      | nil => exact absurd hd (repr_ne_nil n)
      | cons d ds' =>
        have hdig : ∀ c ∈ d :: ds', c.isDigit = true := by
          rw [← hd]; exact repr_digits n
        rw [List.cons_append, evBody, if_pos (hdig d (List.mem_cons_self d ds'))]
        rw [evRun_semi ds' [d] _ (fun c hc => hdig c (List.mem_cons_of_mem d hc))]
        have hih := ih s (by simp)
        rw [List.map_cons] at hih
        rw [hih]
        show some ((([d] ++ ds') :: (m :: rest').map (fun k => (Nat.repr k).data)), s)
            = some ((n :: m :: rest').map (fun k => (Nat.repr k).data), s)
        rw [List.singleton_append, ← hd]
        simp

theorem events_code :
    ∀ (codes : List Nat) (s : List Char),
      events ((ControlCodes.render ⟨codes⟩).data ++ s) = paramsOf codes ++ events s := by
  intro codes s
  by_cases hne : codes = []
  · subst hne
    rw [show (ControlCodes.render ⟨[]⟩).data = [] from rfl, List.nil_append]
    rfl
  · rw [render_data codes hne, List.cons_append, List.cons_append, List.append_assoc,
      List.singleton_append, events_cons]
    have hm : evCode ('\x1b' :: '[' :: ((joinSemicolon (codes.map Nat.repr)).data ++ 'm' :: s))
        = some (codes.map (fun n => (Nat.repr n).data), s) := by
      rw [evCode, if_pos ⟨rfl, rfl⟩]
      exact evBody_join codes s hne
    rw [hm]
    show (codes.map (fun n => (Nat.repr n).data)).map Ev.param ++ events s = _
    rw [List.map_map]
    rfl

theorem events_renderAll :
    ∀ l : List OutTok, (∀ t ∈ textsOut l, noEsc t = true) →
      events (renderAll l).data = eventsOfToks l := by
  intro l
  induction l with
  | nil => intro _; rfl
  | cons t rest ih =>
    intro h
    cases t with
    | code c =>
      rw [renderAll, String.data_append,
        show (OutTok.code c).render = ControlCodes.render ⟨c.codes⟩ from rfl,
        events_code c.codes, eventsOfToks]
      rw [textsOut] at h
      rw [ih h]
      rfl
    | text t =>
      rw [renderAll, String.data_append, show (OutTok.text t).render = t from rfl]
      rw [textsOut] at h
      have hesc : ∀ c ∈ t.data, ¬ c = '\x1b' := by
        have := h t (List.mem_cons_self t _)
        rw [noEsc, List.all_eq_true] at this
        intro c hc
        simpa using this c hc
      rw [events_text t.data _ hesc, eventsOfToks, ih (fun t' ht' => h t' (List.mem_cons_of_mem t ht'))]
      rfl

mutual

theorem eventsOfToks_mergeGo_none : ∀ l : List OutTok, eventsOfToks (mergeGo l none) = eventsOfToks l
  | [] => rfl
  | OutTok.text t :: rest => by
    rw [mergeGo, eventsOfToks, eventsOfToks, eventsOfToks_mergeGo_none rest]
  | OutTok.code c :: rest => by
    rw [mergeGo, eventsOfToks_mergeGo_some rest c, eventsOfToks]
    rfl

theorem eventsOfToks_mergeGo_some : ∀ (l : List OutTok) (a : ControlCodes),
    eventsOfToks (mergeGo l (some a)) = paramsOf a.codes ++ eventsOfToks l
  | [], a => by
    rw [mergeGo, eventsOfToks, eventsOfToks]
    simp [tokEvents]
    rfl
  | OutTok.code c :: rest, a => by
    rw [mergeGo, eventsOfToks_mergeGo_some rest (a.add c), eventsOfToks]
    simp [ControlCodes.add, paramsOf, tokEvents, List.map_append, List.append_assoc]
  | OutTok.text t :: rest, a => by
    rw [mergeGo, eventsOfToks, eventsOfToks, eventsOfToks, eventsOfToks_mergeGo_none rest]
    simp [List.append_assoc, tokEvents]

end

/-! ## Claim theorems -/

/-- C1: the concrete scenario tree `RichStr("DDD", red("RRR", green("GGG"),
"rrr"), "ddd")` renders as `"DDD"` + fg-red-on (`ESC[31m`) + `"RRR"` +
bg-lightgreen-on (`ESC[102m`) + `"GGG"` + bg-reset (`ESC[49m`) + `"rrr"` +
fg-reset (`ESC[39m`) + `"ddd"`, and its plain projection is
`"DDDRRRGGGrrrddd"`. -/
theorem claim_C1 :
    RichStr.render c1tree = "DDD\x1b[31mRRR\x1b[102mGGG\x1b[49mrrr\x1b[39mddd"
    ∧ plain c1tree = "DDDRRRGGGrrrddd" :=
  ⟨rfl, rfl⟩

/-- C2: `Sheet.diff old new` is exactly the patch the specification
describes: iterate every category of the catalog in its fixed enumeration
order, default a category absent from either snapshot to the category's
reset, demote the new value to the neutral sentinel when the old value
equals neutral and the new equals the reset, and include the category in
the patch exactly when the normalized values differ. -/
theorem claim_C2 : ∀ old new : Sheet, Sheet.diff old new = diffSpec old new := by
  intro old new
  unfold Sheet.diff diffSpec
  have hfun :
      (fun (patch : Sheet) (p : String × List Nat) =>
        let r := resetStyle p.1 p.2
        let o := (dictGet old p.1).getD r
        let n0 := (dictGet new p.1).getD r
        let n := if styleEq o neutral && styleEq n0 r then neutral else n0
        if styleEq o n then patch else dictSet patch p.1 n)
      = (fun (acc : Sheet) (q : String × List Nat) =>
          match (fun (p : String × List Nat) =>
            let r := resetStyle p.1 p.2
            let o := (dictGet old p.1).getD r
            let n0 := (dictGet new p.1).getD r
            let n := if styleEq o neutral && styleEq n0 r then neutral else n0
            if styleEq o n then none else some n) q with
          | none => acc
          | some n => dictSet acc q.1 n) := by
    funext patch p
    by_cases h : styleEq ((dictGet old p.1).getD (resetStyle p.1 p.2))
        (if styleEq ((dictGet old p.1).getD (resetStyle p.1 p.2)) neutral
            && styleEq ((dictGet new p.1).getD (resetStyle p.1 p.2)) (resetStyle p.1 p.2)
          then neutral else (dictGet new p.1).getD (resetStyle p.1 p.2)) = true
    · simp only [h, if_true]
    · simp only [h]
      simp
  rw [hfun]
  rw [foldl_dictSet_eq_filterMap _ catalog [] (by intro q hq p hp; simp at hp) (by decide)]
  rw [List.nil_append]
  congr 1
  funext q
  by_cases h : styleEq ((dictGet old q.1).getD (resetStyle q.1 q.2))
      (if styleEq ((dictGet old q.1).getD (resetStyle q.1 q.2)) neutral
          && styleEq ((dictGet new q.1).getD (resetStyle q.1 q.2)) (resetStyle q.1 q.2)
        then neutral else (dictGet new q.1).getD (resetStyle q.1 q.2)) = true
  · simp only [h, if_true]
    simp
  · simp only [h]
    simp

/-- C3, counterexample: the final synthetic snapshot appended by
`sheetRepr` is the all-reset sheet `Sheet(None)` — whose `Back` entry
carries code 49 — and not the "all categories neutral" snapshot the claim
names, which it differs from. -/
theorem claim_C3_cex :
    (sheetRepr (RichStr.mk (ChildList.consStr "x" ChildList.nil) emptySheet)).getLast?
      = some (Tok.sheet defaultSheet)
    ∧ Tok.sheet defaultSheet ≠ Tok.sheet neutralSheet := by
  constructor
  · rfl
  · decide

/-- C3 (amended): flattening is the described depth-first left-to-right
traversal — each literal-text child immediately preceded by the inherited
snapshot layered with the node's local snapshot, node children recursed
into with the layered snapshot — and after the traversal `sheetRepr`
appends, as last element, a final synthetic snapshot mapping every
category to its own reset style (not to the neutral sentinel). -/
theorem claim_C3_amended :
    (∀ (r : RichStr) (inh : Sheet), r.dfs inh = dfsSpec r inh)
    ∧ ∀ r : RichStr, sheetRepr r = dfsSpec r defaultSheet ++ [Tok.sheet defaultSheet] := by
  constructor
  · exact dfs_eq_dfsSpec
  · intro r
    rw [sheetRepr, dfs_eq_dfsSpec]

/-- C4, counterexample: layering with the snapshot that maps every
category to neutral does not leave `S = Sheet(red)` unchanged in either
direction: with the neutral sheet as the override the `Fore` value is
replaced by neutral, and with it as the base a neutral `Back` binding
that `S` lacks appears. -/
theorem claim_C4_cex :
    dictGet (Sheet.union sheetForeRed neutralSheet) "Fore" ≠ dictGet sheetForeRed "Fore"
    ∧ dictGet (Sheet.union neutralSheet sheetForeRed) "Back" ≠ dictGet sheetForeRed "Back" := by
  constructor <;> decide

/-- C4 (amended): layering a snapshot `S` that binds every catalog
category (with unique keys) onto the all-neutral base yields a snapshot
with exactly `S`'s lookups; and diff of two all-neutral snapshots, or of
the all-neutral snapshot (as old) against the all-reset default or the
empty snapshot (as new), is the empty patch. -/
theorem claim_C4_amended :
    (∀ (S : Sheet) (k : String), (S.map Prod.fst).Nodup → coversCatalog S = true →
        dictGet (Sheet.union neutralSheet S) k = dictGet S k)
    ∧ Sheet.diff neutralSheet neutralSheet = []
    ∧ Sheet.diff neutralSheet defaultSheet = []
    ∧ Sheet.diff neutralSheet emptySheet = [] :=
  ⟨fun S k hn hc => neutral_layer_total S k hn hc, rfl, rfl, rfl⟩

/-- Witness for C4: the layering law applied at the concrete total
snapshot `Sheet(None)`. -/
theorem claim_C4_witness :
    ((defaultSheet.map Prod.fst).Nodup ∧ coversCatalog defaultSheet = true)
    ∧ dictGet (Sheet.union neutralSheet defaultSheet) "Fore" = dictGet defaultSheet "Fore" :=
  ⟨⟨by decide, by decide⟩, claim_C4_amended.1 defaultSheet "Fore" (by decide) (by decide)⟩

/-- C5, counterexample: for a tree whose literal text is itself the
escape sequence `ESC[1m`, the rendered string equals that text, deleting
escape-shaped substrings erases it, and the plain projection keeps it —
so the claimed equality fails for arbitrary trees. -/
theorem claim_C5_cex : stripString (RichStr.render cexEscTree) ≠ plain cexEscTree := by
  decide

/-- C5 (amended): for every tree whose literal texts do not contain the
escape character, `plain` equals the fully rendered string with every
substring matching `ESC[(\d+;)*\d+m` deleted (leftmost,
non-overlapping). -/
theorem claim_C5_amended :
    ∀ r : RichStr, escFreeTree r = true →
      plain r = stripString (RichStr.render r) := by
  intro r h
  rw [stripString, RichStr.render, plain, optimizedCodeRepr]
  rw [show mergeCodes = true from rfl, if_pos rfl]
  have htexts : textsOut (mergeAdjacentCodes (optimizeSheetsToCodes (sheetRepr r)))
      = textsTok (sheetRepr r) := by
    rw [mergeAdjacentCodes, textsOut_mergeGo, optimizeSheetsToCodes, textsOut_optGo]
  have hesc : ∀ t ∈ textsOut (mergeAdjacentCodes (optimizeSheetsToCodes (sheetRepr r))),
      noEsc t = true := by
    rw [htexts]
    exact sheetRepr_texts_noEsc r h
  have hstrip := strip_renderAll _ hesc
  rw [htexts] at hstrip
  exact ((congrArg String.mk hstrip).trans rfl).symm

/-- Witness for C5: the amended law applied at the concrete scenario
tree of C1. -/
theorem claim_C5_witness :
    escFreeTree c1tree = true ∧ plain c1tree = stripString (RichStr.render c1tree) :=
  ⟨by decide, claim_C5_amended c1tree (by decide)⟩

/-- C6: for every token stream containing two adjacent control-code
tokens (and whose text tokens contain no raw escape character, so that
"same terminal effect" is well defined), `mergeAdjacentCodes` replaces
each maximal run of adjacent control-code tokens by one token carrying
the ordered concatenation of the run's codes (`mergeSpec`), keeps the
text tokens unchanged and in order, and the merged rendering drives a
terminal through exactly the same event sequence — same SGR parameters
in the same order, same literal characters — as the unmerged one. -/
theorem claim_C6 :
    ∀ buf : List OutTok, hasAdjacentCodes buf = true → escFreeOut buf = true →
      mergeAdjacentCodes buf = mergeSpec buf
      ∧ textsOut (mergeAdjacentCodes buf) = textsOut buf
      ∧ events (renderAll (mergeAdjacentCodes buf)).data = events (renderAll buf).data := by
  intro buf _ hesc
  refine ⟨mergeGo_none_eq buf, textsOut_mergeGo buf none, ?_⟩
  rw [escFreeOut, List.all_eq_true] at hesc
  have h1 : ∀ t ∈ textsOut (mergeAdjacentCodes buf), noEsc t = true := by
    rw [mergeAdjacentCodes, textsOut_mergeGo]
    exact hesc
  rw [events_renderAll _ h1, events_renderAll _ hesc, mergeAdjacentCodes,
    eventsOfToks_mergeGo_none]

/-- Witness for C6: the merger law applied at the repository's
code-merger test stream. -/
theorem claim_C6_witness :
    hasAdjacentCodes mergerTestData = true ∧ escFreeOut mergerTestData = true
    ∧ mergeAdjacentCodes mergerTestData = mergeSpec mergerTestData :=
  ⟨by decide, by decide, (claim_C6 mergerTestData (by decide) (by decide)).1⟩

/-- C7, counterexample: the all-zero code list `(0,)` does not render to
the empty string (it renders `ESC[0m`), refuting the claim's "also when
its code list consists entirely of zeros". -/
theorem claim_C7_cex : ¬ (ControlCodes.render ⟨[0]⟩ = "") := by decide

/-- C7 (amended): a control-code sequence renders to the empty string
exactly when its code list is empty; every non-empty code list — an
all-zero one included — renders as `ESC[` + the `;`-joined decimal
integers + `m`. -/
theorem claim_C7_amended :
    ∀ c : ControlCodes,
      (c.render = "" ↔ c.codes = [])
      ∧ (c.codes ≠ [] →
          c.render = "\x1b[" ++ joinSemicolon (c.codes.map Nat.repr) ++ "m") := by
  intro c
  constructor
  · constructor
    · intro h
      by_contra hne
      rw [ControlCodes.render, if_neg hne] at h
      have hd := congrArg String.data h
      simp only [String.data_append] at hd
      simp at hd
    · intro h
      simp [ControlCodes.render, h]
  · intro h
    rw [ControlCodes.render, if_neg h]

/-- Witness for C7: the amended rendering law applied at the all-zero
singleton code list. -/
theorem claim_C7_witness :
    (ControlCodes.mk [0]).codes ≠ []
    ∧ ControlCodes.render ⟨[0]⟩ = "\x1b[" ++ joinSemicolon ([0].map Nat.repr) ++ "m" :=
  ⟨by decide, (claim_C7_amended ⟨[0]⟩).2 (by decide)⟩

/-- C8: combining two styles of the same category yields a style of that
category whose codes are the concatenation and whose name combines both
names; combining styles of different categories yields a plain
control-code sequence with the concatenated codes and no category. -/
theorem claim_C8 :
    (∀ (a b : Style) (g an bn : String),
        a.group = some g → b.group = some g → a.name = some an → b.name = some bn →
        Style.add a b = some (Sum.inl ⟨some (an ++ "&" ++ bn), a.codes ++ b.codes, some g⟩))
    ∧ (∀ (a b : Style) (g1 g2 : String),
        a.group = some g1 → b.group = some g2 → g1 ≠ g2 →
        Style.add a b = some (Sum.inr ⟨a.codes ++ b.codes⟩)) := by
  constructor
  · intro a b g an bn hga hgb hna hnb
    unfold Style.add
    rw [if_pos (hga.trans hgb.symm)]
    rw [hna, hnb, hga]
  · intro a b g1 g2 hga hgb hne
    unfold Style.add
    rw [if_neg]
    rw [hga, hgb]
    simp [hne]

/-- Witness for C8: `red + cyan` (same category `Fore`) and
`red + green` (categories `Fore` and `Back`). -/
theorem claim_C8_witness :
    Style.add red cyan = some (Sum.inl ⟨some "red&cyan", [31, 36], some "Fore"⟩)
    ∧ Style.add red green = some (Sum.inr ⟨[31, 102]⟩) :=
  ⟨claim_C8.1 red cyan "Fore" "red" "cyan" rfl rfl rfl rfl,
   claim_C8.2 red green "Fore" "Back" rfl rfl (by decide)⟩

/-- C9: rendering is pure with respect to the tree — the four members of
the side-effect test's 4-node chain render to their four fixed reference
strings under every ordering in which the renders are performed
(quantified over every map of positions, which covers all
permutations). -/
theorem claim_C9 :
    ∀ (p : Fin 4 → Fin 4) (i : Fin 4), (chainTree (p i)).render = chainRef (p i) := by
  intro p i
  have h : ∀ j : Fin 4, (chainTree j).render = chainRef j := by decide
  exact h (p i)

/-- C10: in `Sheet.diff` an absent category behaves exactly like an
explicitly stored reset style: diffing against the empty snapshot and
against the all-reset snapshot produces identical patches, on either
side of the diff. -/
theorem claim_C10 :
    ∀ S : Sheet,
      Sheet.diff S emptySheet = Sheet.diff S defaultSheet
      ∧ Sheet.diff emptySheet S = Sheet.diff defaultSheet S :=
  fun _ => ⟨rfl, rfl⟩

end RichConsole
